import Mathlib

/-!
Verification of the fixed-base table-generation engine in `src/constants.rs`
(windowed scalar-multiplication tables, Lagrange coefficient derivation and
the sign-disambiguation z-search for the Orchard fixed bases).

The curve group is modelled abstractly: a type `P` with an `AddCommGroup`
structure and a `Module Fq P` scalar action, where `Fq` is the concrete
Pallas scalar field `ZMod pallasScalarModulus`.  The Pallas group has prime
order `q`, so scalar multiplication by a nonzero field element at a nonzero
point never yields the identity; theorems that need this carry it as the
hypothesis `hord : ∀ a : Fq, a ≠ 0 → a • g ≠ 0`.

Affine-coordinate extraction (`CurveAffine::get_xy`, returning `None` exactly
at the point at infinity) is an external collaborator of the source; it is
modelled as a parameter `toXY : P → Option (Fp × Fp)` together with the
hypothesis `htoXY : ∀ pt, toXY pt = none ↔ pt = 0`.  Likewise the base-field
square-root test `sqrt().is_some()` is modelled as a parameter
`isSq : Fp → Bool`.

Rust `.unwrap()` panics and `assert_eq!` failures are modelled by an
outermost `Option` layer on the functions that can panic
(`compute_lagrange_coeffs`, `find_zs`): the outer `none` means the Rust
program would have panicked, and is proved unreachable for a generator of
full order.  The `Option` returned by the Rust `find_zs` itself is the inner
layer.
-/

namespace Orchard

/-- Modulus of the Pallas base field (`pallas::Base`). -/
def pallasBaseModulus : ℕ :=
  0x40000000000000000000000000000000224698fc094cf91b992d30ed00000001

/-- Modulus of the Pallas scalar field (`pallas::Scalar`). -/
def pallasScalarModulus : ℕ :=
  0x40000000000000000000000000000000224698fc0994a8dd8c46eb2100000001

/-- The Pallas base field `C::Base`. -/
abbrev Fp := ZMod pallasBaseModulus

/-- The Pallas scalar field `C::ScalarExt`. -/
abbrev Fq := ZMod pallasScalarModulus

/-- `pallas::Base::NUM_BITS`: the bit length of the Pallas base-field
modulus.  Sanity: `2 ^ 254 ≤ pallasBaseModulus < 2 ^ 255`. -/
def pallasBaseNumBits : ℕ := 255

/-- `L_ORCHARD_BASE`. -/
def L_ORCHARD_BASE : ℕ := 255

/-- `FIXED_BASE_WINDOW_SIZE`: window size for fixed-base scalar
multiplication. -/
def FIXED_BASE_WINDOW_SIZE : ℕ := 3

/-- `NUM_WINDOWS = pallas::Base::NUM_BITS as usize / FIXED_BASE_WINDOW_SIZE`. -/
def NUM_WINDOWS : ℕ := pallasBaseNumBits / FIXED_BASE_WINDOW_SIZE

/-- `NUM_COMPLETE_BITS`. -/
def NUM_COMPLETE_BITS : ℕ := 3

/-- `let h: usize = 1 << FIXED_BASE_WINDOW_SIZE`, the per-window table size,
bound locally in each of the three source functions. -/
def h : ℕ := 1 <<< FIXED_BASE_WINDOW_SIZE

/-- `pub struct OrchardFixedBase<C: CurveAffine>(C)` with its `new`
constructor and `value` accessor. -/
structure OrchardFixedBase (C : Type) where
  new ::
  value : C
deriving DecidableEq

/-- `pub enum OrchardFixedBases<C: CurveAffine>`: the five role-tagged
generators. -/
inductive OrchardFixedBases (C : Type) where
  | CommitIvkR : OrchardFixedBase C → OrchardFixedBases C
  | NoteCommitR : OrchardFixedBase C → OrchardFixedBases C
  | NullifierK : OrchardFixedBase C → OrchardFixedBases C
  | ValueCommitR : OrchardFixedBase C → OrchardFixedBases C
  | ValueCommitV : OrchardFixedBase C → OrchardFixedBases C

/-- `OrchardFixedBases::inner`. -/
def OrchardFixedBases.inner {C : Type} : OrchardFixedBases C → OrchardFixedBase C
  | .CommitIvkR b => b
  | .NoteCommitR b => b
  | .NullifierK b => b
  | .ValueCommitR b => b
  | .ValueCommitV b => b

/-- The source's `impl PartialEq for OrchardFixedBases`:
`fn eq(&self, other: &Self) -> bool { self.inner() == other.inner() }`.
Note that it compares the wrapped points and ignores the role tags. -/
def OrchardFixedBases.eq {C : Type} [DecidableEq C]
    (a b : OrchardFixedBases C) : Bool :=
  a.inner == b.inner

/-- The source's `impl Hash for OrchardFixedBases` writes
`format!("{:?}", "<RoleName>").as_bytes()` to the hasher state and ignores
the wrapped point; this models the bytes written (the `Debug` formatting of
a string literal includes the surrounding quotes). -/
def OrchardFixedBases.hashWrite {C : Type} : OrchardFixedBases C → String
  | .CommitIvkR _ => "\"CommitIvkR\""
  | .NoteCommitR _ => "\"NoteCommitR\""
  | .NullifierK _ => "\"NullifierK\""
  | .ValueCommitR _ => "\"ValueCommitR\""
  | .ValueCommitV _ => "\"ValueCommitV\""

section FixedBase

variable {P : Type} [AddCommGroup P] [Module Fq P]

/-- `FixedBase::compute_window_table` from `src/constants.rs`: for each of
the first `NUM_WINDOWS - 1` windows `w` it pushes the list of multiples
`[(k+1)*(h^w)]B` for `k ∈ [0, h)`, then pushes the last window
`[k*(h^(NUM_WINDOWS-1)) - sum]B` where `sum = Σ_{j<NUM_WINDOWS-1} h^j`,
all scalar arithmetic in the scalar field. -/
def compute_window_table (g : P) : List (List P) :=
  let window_table : List (List P) :=
    (List.range (NUM_WINDOWS - 1)).foldl
      (fun wt w =>
        wt ++ [(List.range h).map (fun k =>
          (((k + 1 : ℕ) : Fq) * ((h : ℕ) : Fq) ^ w) • g)])
      []
  let sum : Fq := (List.range (NUM_WINDOWS - 1)).foldl
      (fun acc w => acc + ((h : ℕ) : Fq) ^ w) 0
  window_table ++ [(List.range h).map (fun k =>
    (((k : ℕ) : Fq) * ((h : ℕ) : Fq) ^ (NUM_WINDOWS - 1) - sum) • g)]

end FixedBase

/-- Modelled from the spec: `util::evaluate` (the file
`src/constants/util.rs` is declared by `pub mod util;` but is not among the
provided sources).  Per the spec it evaluates the interpolation polynomial,
given by its monomial-basis coefficients, at a base-field point. -/
def evaluate (coeffs : List Fp) (x : Fp) : Fp :=
  coeffs.foldr (fun c acc => c + x * acc) 0

/-- coefficient-list addition of polynomials in the monomial basis. -/
def polyAdd : List Fp → List Fp → List Fp
  | [], l₂ => l₂
  | l₁, [] => l₁
  | a :: l₁, b :: l₂ => (a + b) :: polyAdd l₁ l₂

/-- coefficient-list scaling of a polynomial by a constant. -/
def polyScale (c : Fp) (l : List Fp) : List Fp :=
  l.map (fun a => c * a)

/-- coefficient-list multiplication of a polynomial by `(X - a)`. -/
def polyMulXsub (a : Fp) (l : List Fp) : List Fp :=
  polyAdd (0 :: l) (polyScale (-a) l)

/-- The Lagrange denominator `Π_{j ≠ i} (x_i - x_j)` of node `i`. -/
def interpDenom (points : List Fp) (i : ℕ) : Fp :=
  (((List.range points.length).filter (fun j => j ≠ i)).map
    (fun j => points.getD i 0 - points.getD j 0)).prod

/-- The Lagrange numerator `Π_{j ≠ i} (X - x_j)` of node `i`, as a
coefficient list. -/
def interpNumer (points : List Fp) (i : ℕ) : List Fp :=
  ((List.range points.length).filter (fun j => j ≠ i)).foldr
    (fun j acc => polyMulXsub (points.getD j 0) acc) [1]

/-- Modelled from the spec: `halo2::arithmetic::lagrange_interpolate`, an
external collaborator called by `compute_lagrange_coeffs` and not among the
provided sources.  Per the spec it returns the monomial-basis coefficients
of the unique polynomial of degree `points.length - 1` through
`(points[i], evals[i])`; this is the standard Lagrange form
`Σ_i evals[i] · d_i⁻¹ · Π_{j ≠ i} (X - points[j])`. -/
def lagrange_interpolate (points evals : List Fp) : List Fp :=
  (List.range points.length).foldl
    (fun acc i =>
      polyAdd acc
        (polyScale (evals.getD i 0 * (interpDenom points i)⁻¹)
          (interpNumer points i)))
    []

section FixedBase

variable {P : Type} [AddCommGroup P] [Module Fq P]

end FixedBase

/-- Left-to-right collection of an iterator of `Option`s into an
`Option` of a list, stopping at the first `none`
(Rust's `collect::<Option<Vec<_>>>`). -/
def collectOption {α β : Type} (f : α → Option β) : List α → Option (List β)
  | [] => some []
  | a :: l =>
    match f a with
    | none => none
    | some b => (collectOption f l).map (fun bs => b :: bs)

section FixedBase

variable {P : Type} [AddCommGroup P] [Module Fq P]

/-- `FixedBase::compute_lagrange_coeffs` from `src/constants.rs`:
interpolation nodes are `0, 1, ..., h-1` in the base field; each window's
x-coordinates (extracted by `point.get_xy().unwrap().0`) are interpolated.
The outer `Option` models the `unwrap`: `none` means the Rust code would
panic on a point at infinity. -/
def compute_lagrange_coeffs (toXY : P → Option (Fp × Fp)) (g : P) :
    Option (List (List Fp)) :=
  let points : List Fp := (List.range h).map (fun i => ((i : ℕ) : Fp))
  collectOption (fun window_points =>
      (collectOption (fun pt => (toXY pt).map (fun xy => xy.1)) window_points).map
        (fun x_window_points => lagrange_interpolate points x_window_points))
    (compute_window_table g)

end FixedBase

/-- The per-point indicator from `find_zs`'s closure `z_for_single_y`:
`1` when `y + z` has a square root and `-y + z` does not, else `0`. -/
def z_for_single_y (isSq : Fp → Bool) (y : Fp) (z : ℕ) : ℕ :=
  let sum_y_is_square : Bool := isSq (y + ((z : ℕ) : Fp))
  let sum_neg_y_is_square : Bool := isSq (-y + ((z : ℕ) : Fp))
  if sum_y_is_square && !sum_neg_y_is_square then 1 else 0

/-- The `for z in 0..bound` loop of `find_z`, returning the first candidate
accepted by the predicate: explicit fuel counts the remaining candidates. -/
def findZLoop (accept : ℕ → Bool) : ℕ → ℕ → Option ℕ
  | _, 0 => none
  | z, fuel + 1 => if accept z then some z else findZLoop accept (z + 1) fuel

/-- The per-window search of `find_zs`'s closure `find_z`, acting on the
extracted y-coordinates of one window: scan `z` in
`0..(1000 * (1 << (2 * h)))` in increasing order and return the first `z`
whose per-point indicators sum to `h`. -/
def find_z (isSq : Fp → Bool) (ys : List Fp) : Option ℕ :=
  findZLoop
    (fun z => (ys.map (fun y => z_for_single_y isSq y z)).sum == h) 0
    (1000 * (1 <<< (2 * h)))

section FixedBase

variable {P : Type} [AddCommGroup P] [Module Fq P]

/-- One window's worth of `find_zs`: the `assert_eq!(h, window_points.len())`
and the y-coordinate `unwrap`s are modelled by the outer `Option` (a panic),
the search result is the inner `Option`. -/
def find_z_window (isSq : Fp → Bool) (toXY : P → Option (Fp × Fp))
    (window_points : List P) : Option (Option ℕ) :=
  if window_points.length = h then
    (collectOption (fun pt => (toXY pt).map (fun xy => xy.2)) window_points).map
      (fun ys => find_z isSq ys)
  else none

/-- The `window_table.iter().map(find_z).collect::<Option<Vec<_>>>()` of
`find_zs`: lazy left-to-right collection that stops at the first window
whose search fails (so later windows are not examined), while a panic in an
examined window surfaces as the outer `none`. -/
def find_zs_go (isSq : Fp → Bool) (toXY : P → Option (Fp × Fp)) :
    List (List P) → Option (Option (List ℕ))
  | [] => some (some [])
  | wp :: rest =>
    match find_z_window isSq toXY wp with
    | none => none
    | some none => some none
    | some (some z) =>
      (find_zs_go isSq toXY rest).map (fun r => r.map (fun zs => z :: zs))

/-- `FixedBase::find_zs` from `src/constants.rs`. -/
def find_zs (isSq : Fp → Bool) (toXY : P → Option (Fp × Fp)) (g : P) :
    Option (Option (List ℕ)) :=
  find_zs_go isSq toXY (compute_window_table g)

end FixedBase

/-! ### Helper lemmas: list folds and indexing -/

theorem foldl_push_eq_map {α β : Type} (f : α → β) :
    ∀ (l : List α) (acc : List β),
      l.foldl (fun wt w => wt ++ [f w]) acc = acc ++ l.map f
  | [], acc => by simp
  | a :: l, acc => by
    rw [List.foldl_cons, foldl_push_eq_map f l (acc ++ [f a])]
    simp

theorem foldl_add_eq_sum {M : Type} [AddCommMonoid M] (f : ℕ → M) :
    ∀ n : ℕ, (List.range n).foldl (fun acc w => acc + f w) 0
      = ∑ j ∈ Finset.range n, f j
  | 0 => by simp
  | n + 1 => by
    rw [List.range_succ, List.foldl_append, foldl_add_eq_sum f n,
      Finset.sum_range_succ]
    simp

theorem getD_map_range {β : Type} (f : ℕ → β) {n i : ℕ} (hi : i < n) (d : β) :
    ((List.range n).map f).getD i d = f i := by
  rw [List.getD_eq_getElem _ _ (by simpa using hi)]
  simp

section FixedBase

variable {P : Type} [AddCommGroup P] [Module Fq P]

theorem compute_window_table_eq (g : P) :
    compute_window_table g
      = (List.range (NUM_WINDOWS - 1)).map
          (fun w => (List.range h).map (fun k =>
            (((k + 1 : ℕ) : Fq) * ((h : ℕ) : Fq) ^ w) • g))
        ++ [(List.range h).map (fun k =>
            (((k : ℕ) : Fq) * ((h : ℕ) : Fq) ^ (NUM_WINDOWS - 1)
              - ∑ j ∈ Finset.range (NUM_WINDOWS - 1), ((h : ℕ) : Fq) ^ j) • g)] := by
  unfold compute_window_table
  rw [foldl_push_eq_map, foldl_add_eq_sum]
  simp

theorem wtable_length (g : P) :
    (compute_window_table g).length = NUM_WINDOWS := by
  rw [compute_window_table_eq]
  simp [NUM_WINDOWS, pallasBaseNumBits, FIXED_BASE_WINDOW_SIZE]

theorem wtable_mem_length (g : P) :
    ∀ wlist ∈ compute_window_table g, wlist.length = h := by
  rw [compute_window_table_eq]
  intro wlist hmem
  rcases List.mem_append.1 hmem with hl | hr
  · rcases List.mem_map.1 hl with ⟨w, _, rfl⟩
    simp
  · rcases List.mem_singleton.1 hr with rfl
    simp

theorem wtable_getD_first (g : P) {w k : ℕ}
    (hw : w < NUM_WINDOWS - 1) (hk : k < h) :
    ((compute_window_table g).getD w []).getD k 0
      = (((k + 1 : ℕ) : Fq) * ((h : ℕ) : Fq) ^ w) • g := by
  rw [compute_window_table_eq,
    List.getD_append _ _ _ _ (by simpa using hw),
    getD_map_range _ hw, getD_map_range _ hk]

theorem wtable_getD_last (g : P) {k : ℕ} (hk : k < h) :
    ((compute_window_table g).getD (NUM_WINDOWS - 1) []).getD k 0
      = (((k : ℕ) : Fq) * ((h : ℕ) : Fq) ^ (NUM_WINDOWS - 1)
          - ∑ j ∈ Finset.range (NUM_WINDOWS - 1), ((h : ℕ) : Fq) ^ j) • g := by
  rw [compute_window_table_eq,
    List.getD_append_right _ _ _ _ (by simp)]
  simp only [List.length_map, List.length_range, Nat.sub_self]
  rw [show ([(List.range h).map (fun k =>
      (((k : ℕ) : Fq) * ((h : ℕ) : Fq) ^ (NUM_WINDOWS - 1)
        - ∑ j ∈ Finset.range (NUM_WINDOWS - 1), ((h : ℕ) : Fq) ^ j) • g)].getD 0 [])
      = (List.range h).map (fun k =>
      (((k : ℕ) : Fq) * ((h : ℕ) : Fq) ^ (NUM_WINDOWS - 1)
        - ∑ j ∈ Finset.range (NUM_WINDOWS - 1), ((h : ℕ) : Fq) ^ j) • g) from rfl,
    getD_map_range _ hk]

end FixedBase

/-! ### Helper lemmas: scalar arithmetic in the scalar field -/

/-- Sanity check for `pallasBaseNumBits`. -/
theorem pallasBaseModulus_bits :
    2 ^ (pallasBaseNumBits - 1) ≤ pallasBaseModulus
      ∧ pallasBaseModulus < 2 ^ pallasBaseNumBits := by
  constructor <;> decide

set_option maxRecDepth 100000 in
theorem first_window_scalar_ne_zero :
    ∀ w < NUM_WINDOWS - 1, ∀ k < h,
      (((k + 1 : ℕ) : Fq) * ((h : ℕ) : Fq) ^ w) ≠ 0 := by
  decide

set_option maxRecDepth 100000 in
theorem last_window_scalar_ne_zero :
    ∀ k < h,
      ((k : ℕ) : Fq) * ((h : ℕ) : Fq) ^ (NUM_WINDOWS - 1)
        - ∑ j ∈ Finset.range (NUM_WINDOWS - 1), ((h : ℕ) : Fq) ^ j ≠ 0 := by
  have hrw : (∑ j ∈ Finset.range (NUM_WINDOWS - 1), ((h : ℕ) : Fq) ^ j)
      = (List.range (NUM_WINDOWS - 1)).foldl (fun acc w => acc + ((h : ℕ) : Fq) ^ w) 0 :=
    (foldl_add_eq_sum _ _).symm
  rw [hrw]
  decide

theorem sum_map_smul {P : Type} [AddCommGroup P] [Module Fq P]
    (c : ℕ → Fq) (g : P) :
    ∀ l : List ℕ, (l.map (fun w => c w • g)).sum = ((l.map c).sum) • g
  | [] => by simp
  | a :: l => by
    simp only [List.map_cons, List.sum_cons, add_smul, sum_map_smul c g l]

theorem list_range_map_sum {M : Type} [AddCommMonoid M] (f : ℕ → M) :
    ∀ n : ℕ, ((List.range n).map f).sum = ∑ j ∈ Finset.range n, f j
  | 0 => by simp
  | n + 1 => by
    rw [List.range_succ, List.map_append, List.sum_append,
      list_range_map_sum f n, Finset.sum_range_succ]
    simp

/-! ### Claim C1 -/

/-- Claim C1: for every generator `g`, every window `w < NUM_WINDOWS - 1` and
every digit `k < h`, the window table holds `((k+1)·h^w)·g`, and the last
window holds `(k·h^(NUM_WINDOWS-1) - S)·g` with
`S = Σ_{j < NUM_WINDOWS-1} h^j`, all scalar arithmetic in the scalar
field. -/
theorem compute_window_table_entries {P : Type} [AddCommGroup P] [Module Fq P]
    (g : P) (w k : ℕ) (hw : w < NUM_WINDOWS - 1) (hk : k < h) :
    ((compute_window_table g).getD w []).getD k 0
        = (((k + 1 : ℕ) : Fq) * ((h : ℕ) : Fq) ^ w) • g
  ∧ ((compute_window_table g).getD (NUM_WINDOWS - 1) []).getD k 0
        = (((k : ℕ) : Fq) * ((h : ℕ) : Fq) ^ (NUM_WINDOWS - 1)
            - ∑ j ∈ Finset.range (NUM_WINDOWS - 1), ((h : ℕ) : Fq) ^ j) • g :=
  ⟨wtable_getD_first g hw hk, wtable_getD_last g hk⟩

/-- Witness for C1 at the concrete generator `1 : Fq` (the scalar field seen
as a module over itself), window `0`, digit `3`. -/
theorem compute_window_table_entries_witness :
    (0 < NUM_WINDOWS - 1 ∧ 3 < h)
  ∧ ((compute_window_table (1 : Fq)).getD 0 []).getD 3 0
        = (((3 + 1 : ℕ) : Fq) * ((h : ℕ) : Fq) ^ 0) • (1 : Fq)
  ∧ ((compute_window_table (1 : Fq)).getD (NUM_WINDOWS - 1) []).getD 3 0
        = (((3 : ℕ) : Fq) * ((h : ℕ) : Fq) ^ (NUM_WINDOWS - 1)
            - ∑ j ∈ Finset.range (NUM_WINDOWS - 1), ((h : ℕ) : Fq) ^ j) • (1 : Fq) :=
  ⟨⟨by decide, by decide⟩,
    compute_window_table_entries (1 : Fq) 0 3 (by decide) (by decide)⟩

/-! ### Claim C2 -/

/-- Claim C2 (telescoping sum): for any choice of window digits
`ks w < h`, summing one table entry per window gives `s • g` where `s` is
the scalar-field element
`Σ_{w < NUM_WINDOWS-1} (ks w + 1)·h^w + (ks (NUM_WINDOWS-1)·h^(NUM_WINDOWS-1) - S)`.
In particular the digits of the window decomposition of a scalar `s` make
this sum equal to `s • g`. -/
theorem window_table_telescoping_sum {P : Type} [AddCommGroup P] [Module Fq P]
    (g : P) (ks : ℕ → ℕ) (hks : ∀ w, ks w < h) :
    ((List.range NUM_WINDOWS).map
        (fun w => ((compute_window_table g).getD w []).getD (ks w) 0)).sum
      = ((∑ w ∈ Finset.range (NUM_WINDOWS - 1),
            ((ks w + 1 : ℕ) : Fq) * ((h : ℕ) : Fq) ^ w)
          + (((ks (NUM_WINDOWS - 1) : ℕ) : Fq) * ((h : ℕ) : Fq) ^ (NUM_WINDOWS - 1)
              - ∑ j ∈ Finset.range (NUM_WINDOWS - 1), ((h : ℕ) : Fq) ^ j)) • g := by
  have hsplit : NUM_WINDOWS = (NUM_WINDOWS - 1) + 1 := by decide
  rw [hsplit, List.range_succ, List.map_append, List.sum_append]
  have hfirst : (List.range (NUM_WINDOWS - 1)).map
      (fun w => ((compute_window_table g).getD w []).getD (ks w) 0)
      = (List.range (NUM_WINDOWS - 1)).map
          (fun w => (((ks w + 1 : ℕ) : Fq) * ((h : ℕ) : Fq) ^ w) • g) := by
    apply List.map_congr_left
    intro w hwmem
    exact wtable_getD_first g (List.mem_range.1 hwmem) (hks w)
  rw [hfirst, sum_map_smul, list_range_map_sum]
  have hlast : ((compute_window_table g).getD (NUM_WINDOWS - 1) []).getD
      (ks (NUM_WINDOWS - 1)) 0
      = (((ks (NUM_WINDOWS - 1) : ℕ) : Fq) * ((h : ℕ) : Fq) ^ (NUM_WINDOWS - 1)
          - ∑ j ∈ Finset.range (NUM_WINDOWS - 1), ((h : ℕ) : Fq) ^ j) • g :=
    wtable_getD_last g (hks (NUM_WINDOWS - 1))
  simp only [List.map_cons, List.map_nil, List.sum_cons, List.sum_nil, add_zero,
    hlast, add_smul, Nat.add_sub_cancel]

/-- Witness for C2 with all digits equal to `3` at the generator `1 : Fq`. -/
theorem window_table_telescoping_sum_witness :
    3 < h
  ∧ ((List.range NUM_WINDOWS).map
        (fun w => ((compute_window_table (1 : Fq)).getD w []).getD 3 0)).sum
      = ((∑ w ∈ Finset.range (NUM_WINDOWS - 1),
            ((3 + 1 : ℕ) : Fq) * ((h : ℕ) : Fq) ^ w)
          + (((3 : ℕ) : Fq) * ((h : ℕ) : Fq) ^ (NUM_WINDOWS - 1)
              - ∑ j ∈ Finset.range (NUM_WINDOWS - 1), ((h : ℕ) : Fq) ^ j)) • (1 : Fq) := by
  have h3 : (3 : ℕ) < h := by decide
  exact ⟨h3, window_table_telescoping_sum (1 : Fq) (fun _ => 3) (fun _ => h3)⟩

/-! ### Helper lemmas: collectOption -/

theorem collectOption_eq_some_map {α β : Type} (f : α → Option β) (gf : α → β) :
    ∀ l : List α, (∀ a ∈ l, f a = some (gf a)) →
      collectOption f l = some (l.map gf)
  | [], _ => rfl
  | a :: l, hall => by
    have ha : f a = some (gf a) := hall a (List.mem_cons_self a l)
    have hl : collectOption f l = some (l.map gf) :=
      collectOption_eq_some_map f gf l (fun b hb => hall b (List.mem_cons_of_mem a hb))
    simp [collectOption, ha, hl]

theorem collectOption_some_length {α β : Type} (f : α → Option β) :
    ∀ {l : List α} {bs : List β}, collectOption f l = some bs →
      bs.length = l.length := by
  intro l
  induction l with
  | nil => intro bs hbs; simp [collectOption] at hbs; simp [← hbs]
  | cons a l ih =>
    intro bs hbs
    simp only [collectOption] at hbs
    cases hfa : f a with
    | none => rw [hfa] at hbs; simp at hbs
    | some b =>
      rw [hfa] at hbs
      cases hcl : collectOption f l with
      | none => rw [hcl] at hbs; simp at hbs
      | some bs' =>
        rw [hcl] at hbs
        simp only [Option.map_some', Option.some.injEq] at hbs
        subst hbs
        simp [ih hcl]

theorem collectOption_some_getD {α β : Type} (f : α → Option β) (dα : α) (dβ : β) :
    ∀ {l : List α} {bs : List β}, collectOption f l = some bs →
      ∀ i < l.length, f (l.getD i dα) = some (bs.getD i dβ) := by
  intro l
  induction l with
  | nil => intro bs _ i hi; simp at hi
  | cons a l ih =>
    intro bs hbs i hi
    simp only [collectOption] at hbs
    cases hfa : f a with
    | none => rw [hfa] at hbs; simp at hbs
    | some b =>
      rw [hfa] at hbs
      cases hcl : collectOption f l with
      | none => rw [hcl] at hbs; simp at hbs
      | some bs' =>
        rw [hcl] at hbs
        simp only [Option.map_some', Option.some.injEq] at hbs
        subst hbs
        cases i with
        | zero => simpa using hfa
        | succ i => exact ih hcl i (by simpa using hi)

theorem collectOption_ne_none {α β : Type} (f : α → Option β) :
    ∀ {l : List α}, (∀ a ∈ l, f a ≠ none) → collectOption f l ≠ none := by
  intro l
  induction l with
  | nil => intro _; simp [collectOption]
  | cons a l ih =>
    intro hall
    simp only [collectOption]
    cases hfa : f a with
    | none => exact absurd hfa (hall a (List.mem_cons_self a l))
    | some b =>
      cases hcl : collectOption f l with
      | none =>
        exact absurd hcl (ih (fun b hb => hall b (List.mem_cons_of_mem a hb)))
      | some bs => simp

/-! ### No-infinity invariants -/

section FixedBase

variable {P : Type} [AddCommGroup P] [Module Fq P]

theorem wtable_entry_ne_zero (g : P) (hord : ∀ a : Fq, a ≠ 0 → a • g ≠ 0) :
    ∀ w < NUM_WINDOWS, ∀ k < h,
      ((compute_window_table g).getD w []).getD k 0 ≠ 0 := by
  intro w hw k hk
  rcases Nat.lt_or_ge w (NUM_WINDOWS - 1) with hlt | hge
  · rw [wtable_getD_first g hlt hk]
    exact hord _ (first_window_scalar_ne_zero w hlt k hk)
  · have hweq : w = NUM_WINDOWS - 1 := le_antisymm (by omega) hge
    subst hweq
    rw [wtable_getD_last g hk]
    exact hord _ (last_window_scalar_ne_zero k hk)

theorem wtable_mem_ne_zero (g : P) (hord : ∀ a : Fq, a ≠ 0 → a • g ≠ 0) :
    ∀ wlist ∈ compute_window_table g, ∀ pt ∈ wlist, pt ≠ 0 := by
  intro wlist hmemw pt hmemp
  rcases List.mem_iff_getElem.1 hmemw with ⟨w, hwlen, hweq⟩
  rcases List.mem_iff_getElem.1 hmemp with ⟨k, hklen, hkeq⟩
  have hw : w < NUM_WINDOWS := by rwa [wtable_length] at hwlen
  have hk : k < h := by
    rw [wtable_mem_length g wlist hmemw] at hklen
    exact hklen
  have h1 : (compute_window_table g).getD w [] = wlist := by
    rw [List.getD_eq_getElem _ _ hwlen, hweq]
  have h2 : wlist.getD k 0 = pt := by
    rw [List.getD_eq_getElem _ _ hklen, hkeq]
  have := wtable_entry_ne_zero g hord w hw k hk
  rwa [h1, h2] at this

end FixedBase

/-! ### Claim C9 -/

/-- Claim C9 (no-infinity invariant): for a generator `g` of full order, no
entry in any window before the last is the identity (its scalar multiplier
`(k+1)·h^w` is nonzero), so affine-coordinate extraction succeeds there. -/
theorem window_table_no_infinity {P : Type} [AddCommGroup P] [Module Fq P]
    (toXY : P → Option (Fp × Fp)) (g : P)
    (hord : ∀ a : Fq, a ≠ 0 → a • g ≠ 0)
    (htoXY : ∀ pt : P, toXY pt = none ↔ pt = 0)
    (w k : ℕ) (hw : w < NUM_WINDOWS - 1) (hk : k < h) :
    (((k + 1 : ℕ) : Fq) * ((h : ℕ) : Fq) ^ w) ≠ 0
  ∧ ((compute_window_table g).getD w []).getD k 0 ≠ 0
  ∧ toXY (((compute_window_table g).getD w []).getD k 0) ≠ none := by
  have hs := first_window_scalar_ne_zero w hw k hk
  have hne : ((compute_window_table g).getD w []).getD k 0 ≠ 0 :=
    wtable_entry_ne_zero g hord w (by omega) k hk
  exact ⟨hs, hne, fun hnone => hne ((htoXY _).1 hnone)⟩

/-- The scalar field seen as a module over itself: multiplication by `1` is
injective, so the generator `1 : Fq` has full order. -/
theorem hordW : ∀ a : Fq, a ≠ 0 → a • (1 : Fq) ≠ 0 := by
  intro a ha
  simpa using ha

/-- Witness coordinate map on `Fq`: affine coordinates exist exactly away
from the identity. -/
def toXYW : Fq → Option (Fp × Fp) :=
  fun x => if x = 0 then none else some (5, 5)

theorem toXYW_spec : ∀ pt : Fq, toXYW pt = none ↔ pt = 0 := by
  intro pt
  unfold toXYW
  by_cases hpt : pt = 0 <;> simp [hpt]

/-- Witness for C9 at the generator `1 : Fq`, window `2`, digit `7`. -/
theorem window_table_no_infinity_witness :
    (2 < NUM_WINDOWS - 1 ∧ 7 < h)
  ∧ ((((7 : ℕ) + 1 : ℕ) : Fq) * ((h : ℕ) : Fq) ^ 2) ≠ 0
  ∧ ((compute_window_table (1 : Fq)).getD 2 []).getD 7 0 ≠ 0
  ∧ toXYW (((compute_window_table (1 : Fq)).getD 2 []).getD 7 0) ≠ none :=
  ⟨⟨by decide, by decide⟩,
    window_table_no_infinity toXYW (1 : Fq) hordW toXYW_spec 2 7
      (by decide) (by decide)⟩

/-! ### Coefficient-list length lemmas -/

theorem polyAdd_length : ∀ l₁ l₂ : List Fp,
    (polyAdd l₁ l₂).length = max l₁.length l₂.length
  | [], l₂ => by simp [polyAdd]
  | a :: l₁, [] => by simp [polyAdd]
  | a :: l₁, b :: l₂ => by
    simp only [polyAdd, List.length_cons, polyAdd_length l₁ l₂]
    omega

theorem polyScale_length (c : Fp) (l : List Fp) :
    (polyScale c l).length = l.length := by
  simp [polyScale]

theorem polyMulXsub_length (a : Fp) (l : List Fp) :
    (polyMulXsub a l).length = l.length + 1 := by
  rw [polyMulXsub, polyAdd_length, polyScale_length]
  simp

theorem foldr_polyMulXsub_length (xs : ℕ → Fp) :
    ∀ L : List ℕ,
      (L.foldr (fun j acc => polyMulXsub (xs j) acc) [1]).length = L.length + 1
  | [] => by simp
  | j :: L => by
    simp only [List.foldr_cons, polyMulXsub_length, List.length_cons,
      foldr_polyMulXsub_length xs L]

theorem filter_ne_range_length : ∀ n i : ℕ, i < n →
    ((List.range n).filter (fun j => j ≠ i)).length = n - 1 := by
  intro n
  induction n with
  | zero => intro i hi; omega
  | succ n ih =>
    intro i hi
    rw [List.range_succ, List.filter_append, List.length_append]
    rcases Nat.lt_or_ge i n with hlt | hge
    · rw [ih i hlt]
      have : n ≠ i := by omega
      simp [this]
      omega
    · have hieq : i = n := by omega
      subst hieq
      have hall : (List.range i).filter (fun j => decide (j ≠ i)) = List.range i := by
        apply List.filter_eq_self.2
        intro j hj
        have : j < i := List.mem_range.1 hj
        simp
        omega
      rw [hall]
      simp

theorem interpNumer_length (points : List Fp) (i : ℕ) (hi : i < points.length) :
    (interpNumer points i).length = points.length := by
  rw [interpNumer, foldr_polyMulXsub_length, filter_ne_range_length _ _ hi]
  omega

theorem foldl_polyAdd_length (f : ℕ → List Fp) (n : ℕ) :
    ∀ (L : List ℕ), L ≠ [] → (∀ i ∈ L, (f i).length = n) →
      ∀ acc : List Fp,
        (L.foldl (fun a i => polyAdd a (f i)) acc).length = max acc.length n := by
  intro L
  induction L with
  | nil => intro hne; exact absurd rfl hne
  | cons i L ih =>
    intro _ hall acc
    by_cases hL : L = []
    · subst hL
      rw [List.foldl_cons, List.foldl_nil, polyAdd_length,
        hall i (List.mem_cons_self i [])]
    · rw [List.foldl_cons,
        ih hL (fun j hj => hall j (List.mem_cons_of_mem i hj)),
        polyAdd_length, hall i (List.mem_cons_self i L)]
      omega

theorem lagrange_interpolate_length (points evals : List Fp) :
    (lagrange_interpolate points evals).length = points.length := by
  rcases Nat.eq_zero_or_pos points.length with hz | hpos
  · rw [lagrange_interpolate, hz]
    simp
  · rw [lagrange_interpolate,
      foldl_polyAdd_length _ points.length (List.range points.length)
        (by simp only [ne_eq, List.range_eq_nil]; omega)
        (fun i hi => by
          rw [polyScale_length, interpNumer_length points i (List.mem_range.1 hi)])
        []]
    simp

/-! ### Claim C8 -/

/-- Claim C8 (table cardinality): the window table has exactly
`NUM_WINDOWS = 255 / 3 = 85` windows of exactly `h = 2^3 = 8` points each,
and (when no point at infinity is hit) the Lagrange coefficients likewise
form `NUM_WINDOWS` vectors of `h` base-field elements each. -/
theorem table_and_coeffs_cardinality {P : Type} [AddCommGroup P] [Module Fq P]
    (toXY : P → Option (Fp × Fp)) (g : P) :
    NUM_WINDOWS = 85
  ∧ h = 8
  ∧ (compute_window_table g).length = NUM_WINDOWS
  ∧ (∀ wlist ∈ compute_window_table g, wlist.length = h)
  ∧ ∀ cs : List (List Fp), compute_lagrange_coeffs toXY g = some cs →
      cs.length = NUM_WINDOWS ∧ ∀ c ∈ cs, c.length = h := by
  refine ⟨by decide, by decide, wtable_length g, wtable_mem_length g, ?_⟩
  intro cs hcs
  unfold compute_lagrange_coeffs at hcs
  constructor
  · rw [collectOption_some_length _ hcs, wtable_length]
  · intro c hc
    rcases List.mem_iff_getElem.1 hc with ⟨i, hilen, hieq⟩
    have hi : i < (compute_window_table g).length := by
      rwa [collectOption_some_length _ hcs] at hilen
    have hpt := collectOption_some_getD _ ([] : List P) ([] : List Fp) hcs i hi
    cases hco : collectOption (fun pt => (toXY pt).map (fun xy => xy.1))
        ((compute_window_table g).getD i []) with
    | none => rw [hco] at hpt; simp at hpt
    | some xs =>
      rw [hco] at hpt
      simp only [Option.map_some', Option.some.injEq] at hpt
      have hceq : cs.getD i [] = c := by
        rw [List.getD_eq_getElem _ _ hilen, hieq]
      rw [hceq] at hpt
      rw [← hpt, lagrange_interpolate_length]
      simp

/-- Witness for C8: the trivial coordinate map `fun _ => some (5, 5)` on the
generator `1 : Fq`; the `some cs` hypothesis of the last conjunct is
discharged by `collectOption_eq_some_map`. -/
theorem table_and_coeffs_cardinality_witness :
    NUM_WINDOWS = 85
  ∧ h = 8
  ∧ (compute_window_table (1 : Fq)).length = NUM_WINDOWS
  ∧ (∀ wlist ∈ compute_window_table (1 : Fq), wlist.length = h)
  ∧ ∀ cs : List (List Fp),
      compute_lagrange_coeffs (fun _ : Fq => some ((5 : Fp), (5 : Fp))) (1 : Fq)
        = some cs →
      cs.length = NUM_WINDOWS ∧ ∀ c ∈ cs, c.length = h :=
  table_and_coeffs_cardinality (fun _ : Fq => some ((5 : Fp), (5 : Fp))) (1 : Fq)

/-! ### Claim C10 -/

theorem find_zs_go_ne_none {P : Type}
    (isSq : Fp → Bool) (toXY : P → Option (Fp × Fp)) :
    ∀ L : List (List P), (∀ wp ∈ L, find_z_window isSq toXY wp ≠ none) →
      find_zs_go isSq toXY L ≠ none
  | [], _ => by simp [find_zs_go]
  | wp :: L, hall => by
    rw [find_zs_go]
    cases hfw : find_z_window isSq toXY wp with
    | none => exact absurd hfw (hall wp (List.mem_cons_self wp L))
    | some r =>
      cases r with
      | none => simp
      | some z =>
        simp only [ne_eq, Option.map_eq_none']
        exact find_zs_go_ne_none isSq toXY L
          (fun wq hwq => hall wq (List.mem_cons_of_mem wp hwq))

section FixedBase

variable {P : Type} [AddCommGroup P] [Module Fq P]

theorem wtable_extraction_some {β : Type} (ext : Fp × Fp → β)
    (toXY : P → Option (Fp × Fp)) (g : P)
    (hord : ∀ a : Fq, a ≠ 0 → a • g ≠ 0)
    (htoXY : ∀ pt : P, toXY pt = none ↔ pt = 0) :
    ∀ wp ∈ compute_window_table g,
      collectOption (fun pt => (toXY pt).map ext) wp ≠ none := by
  intro wp hwp
  apply collectOption_ne_none
  intro pt hpt
  have hne : pt ≠ 0 := wtable_mem_ne_zero g hord wp hwp pt hpt
  have : toXY pt ≠ none := fun hcontra => hne ((htoXY pt).1 hcontra)
  simpa [Option.map_eq_none'] using this

end FixedBase

/-- Claim C10 (implicit): for a generator of full order, the affine
extraction `unwrap` succeeds on every point of every window, including the
last one: the last-window scalars `k·h^(NUM_WINDOWS-1) - S` are nonzero in
the scalar field, the last window contains no identity point, and neither
`compute_lagrange_coeffs` nor `find_zs` can panic (outer `none`). -/
theorem last_window_unwrap_succeeds {P : Type} [AddCommGroup P] [Module Fq P]
    (isSq : Fp → Bool) (toXY : P → Option (Fp × Fp)) (g : P)
    (hord : ∀ a : Fq, a ≠ 0 → a • g ≠ 0)
    (htoXY : ∀ pt : P, toXY pt = none ↔ pt = 0)
    (k : ℕ) (hk : k < h) :
    (((k : ℕ) : Fq) * ((h : ℕ) : Fq) ^ (NUM_WINDOWS - 1)
        - ∑ j ∈ Finset.range (NUM_WINDOWS - 1), ((h : ℕ) : Fq) ^ j) ≠ 0
  ∧ ((compute_window_table g).getD (NUM_WINDOWS - 1) []).getD k 0 ≠ 0
  ∧ toXY (((compute_window_table g).getD (NUM_WINDOWS - 1) []).getD k 0) ≠ none
  ∧ compute_lagrange_coeffs toXY g ≠ none
  ∧ find_zs isSq toXY g ≠ none := by
  have hne : ((compute_window_table g).getD (NUM_WINDOWS - 1) []).getD k 0 ≠ 0 :=
    wtable_entry_ne_zero g hord (NUM_WINDOWS - 1) (by decide) k hk
  refine ⟨last_window_scalar_ne_zero k hk, hne,
    fun hcontra => hne ((htoXY _).1 hcontra), ?_, ?_⟩
  · unfold compute_lagrange_coeffs
    apply collectOption_ne_none
    intro wp hwp
    simp only [ne_eq, Option.map_eq_none']
    exact wtable_extraction_some (fun xy => xy.1) toXY g hord htoXY wp hwp
  · unfold find_zs
    apply find_zs_go_ne_none
    intro wp hwp
    rw [find_z_window, if_pos (wtable_mem_length g wp hwp)]
    simp only [ne_eq, Option.map_eq_none']
    exact wtable_extraction_some (fun xy => xy.2) toXY g hord htoXY wp hwp

/-- Witness for C10 at the generator `1 : Fq` with digit `0` and the
everywhere-false square test. -/
theorem last_window_unwrap_succeeds_witness :
    0 < h
  ∧ ((((0 : ℕ) : Fq) * ((h : ℕ) : Fq) ^ (NUM_WINDOWS - 1)
        - ∑ j ∈ Finset.range (NUM_WINDOWS - 1), ((h : ℕ) : Fq) ^ j) ≠ 0
  ∧ ((compute_window_table (1 : Fq)).getD (NUM_WINDOWS - 1) []).getD 0 0 ≠ 0
  ∧ toXYW (((compute_window_table (1 : Fq)).getD (NUM_WINDOWS - 1) []).getD 0 0) ≠ none
  ∧ compute_lagrange_coeffs toXYW (1 : Fq) ≠ none
  ∧ find_zs (fun _ => false) toXYW (1 : Fq) ≠ none) :=
  ⟨by decide,
    last_window_unwrap_succeeds (fun _ => false) toXYW (1 : Fq) hordW toXYW_spec
      0 (by decide)⟩

/-! ### The z-search loop: first-hit characterization -/

theorem findZLoop_none_iff (accept : ℕ → Bool) :
    ∀ (fuel start : ℕ),
      findZLoop accept start fuel = none ↔
        ∀ z, start ≤ z → z < start + fuel → accept z = false := by
  intro fuel
  induction fuel with
  | zero =>
    intro start
    simp only [findZLoop]
    constructor
    · intro _ z hz1 hz2; omega
    · intro _; trivial
  | succ fuel ih =>
    intro start
    rw [findZLoop]
    by_cases hacc : accept start = true
    · rw [if_pos hacc]
      simp only [reduceCtorEq, false_iff, not_forall]
      exact ⟨start, le_refl start, by omega, by simp [hacc]⟩
    · have haccf : accept start = false := by
        rw [Bool.not_eq_true] at hacc
        exact hacc
      rw [if_neg hacc, ih (start + 1)]
      constructor
      · intro hall z hz1 hz2
        rcases Nat.eq_or_lt_of_le hz1 with hz | hz
        · subst hz; exact haccf
        · exact hall z hz (by omega)
      · intro hall z hz1 hz2
        exact hall z (by omega) (by omega)

theorem findZLoop_some_iff (accept : ℕ → Bool) :
    ∀ (fuel start z : ℕ),
      findZLoop accept start fuel = some z ↔
        (start ≤ z ∧ z < start + fuel ∧ accept z = true
          ∧ ∀ z', start ≤ z' → z' < z → accept z' = false) := by
  intro fuel
  induction fuel with
  | zero =>
    intro start z
    simp only [findZLoop]
    constructor
    · intro hcontra; exact absurd hcontra (by simp)
    · intro ⟨h1, h2, _⟩; omega
  | succ fuel ih =>
    intro start z
    rw [findZLoop]
    by_cases hacc : accept start = true
    · rw [if_pos hacc]
      constructor
      · intro hsome
        obtain rfl : start = z := Option.some.inj hsome
        exact ⟨le_refl _, by omega, hacc, fun z' h1 h2 => by omega⟩
      · intro ⟨h1, _, _, hmin⟩
        rcases Nat.eq_or_lt_of_le h1 with hz | hz
        · rw [hz]
        · have hf := hmin start (le_refl start) hz
          rw [hf] at hacc
          exact absurd hacc Bool.false_ne_true
    · have haccf : accept start = false := by
        rw [Bool.not_eq_true] at hacc
        exact hacc
      rw [if_neg hacc, ih (start + 1) z]
      constructor
      · intro ⟨h1, h2, h3, hmin⟩
        refine ⟨by omega, by omega, h3, ?_⟩
        intro z' hz1 hz2
        rcases Nat.eq_or_lt_of_le hz1 with hz | hz
        · subst hz; exact haccf
        · exact hmin z' hz hz2
      · intro ⟨h1, h2, h3, hmin⟩
        have hzstart : z ≠ start := by
          rintro rfl
          rw [haccf] at h3
          exact absurd h3 Bool.false_ne_true
        refine ⟨by omega, by omega, h3, ?_⟩
        intro z' hz1 hz2
        exact hmin z' (by omega) hz2

/-! ### Per-point indicator lemmas -/

theorem z_for_single_y_le_one (isSq : Fp → Bool) (y : Fp) (z : ℕ) :
    z_for_single_y isSq y z ≤ 1 := by
  rw [z_for_single_y]
  split <;> omega

theorem z_for_single_y_eq_one_iff (isSq : Fp → Bool) (y : Fp) (z : ℕ) :
    z_for_single_y isSq y z = 1
      ↔ (isSq (y + ((z : ℕ) : Fp)) = true ∧ isSq (-y + ((z : ℕ) : Fp)) = false) := by
  rw [z_for_single_y]
  split
  · rename_i hcond
    rw [Bool.and_eq_true, Bool.not_eq_true'] at hcond
    simp [hcond.1, hcond.2]
  · rename_i hcond
    rw [Bool.and_eq_true, Bool.not_eq_true'] at hcond
    constructor
    · intro hcontra; omega
    · intro ⟨h1, h2⟩; exact absurd ⟨h1, h2⟩ hcond

/-! ### Claim C5 (corrected) -/

/-- Counterexample input for C5: a square test that accepts exactly the
base-field element `64001`. -/
def isSqCx : Fp → Bool :=
  fun x => decide (x = ((64001 : ℕ) : Fp))

/-- Amended C5: the per-window z-search examines candidates `z` in
increasing order starting from `0`, restricted to the range
`[0, 1000 * 2^(2*h))` (that is, below `65 536 000`, since the source bound
is `1000 * (1 << (2 * h))`, not `1000 * h^2`), returns the first qualifying
`z` in that range (the per-point indicators summing to `h`), and returns
`none` exactly when no `z` in that range qualifies. -/
theorem find_z_first_hit (isSq : Fp → Bool) (ys : List Fp) :
    (∀ z : ℕ, find_z isSq ys = some z ↔
        (z < 1000 * 2 ^ (2 * h)
          ∧ (ys.map (fun y => z_for_single_y isSq y z)).sum = h
          ∧ ∀ z' < z, (ys.map (fun y => z_for_single_y isSq y z')).sum ≠ h))
  ∧ (find_z isSq ys = none ↔
      ∀ z < 1000 * 2 ^ (2 * h),
        (ys.map (fun y => z_for_single_y isSq y z)).sum ≠ h) := by
  have hbound : 1000 * (1 <<< (2 * h)) = 1000 * 2 ^ (2 * h) := by
    rw [Nat.shiftLeft_eq, one_mul]
  constructor
  · intro z
    rw [find_z, findZLoop_some_iff, hbound]
    constructor
    · intro ⟨_, h2, h3, h4⟩
      refine ⟨by omega, beq_iff_eq.1 h3, ?_⟩
      intro z' hz'
      exact beq_eq_false_iff_ne.1 (h4 z' (Nat.zero_le z') hz')
    · intro ⟨h1, h2, h3⟩
      exact ⟨Nat.zero_le z, by omega, beq_iff_eq.2 h2,
        fun z' _ hz' => beq_eq_false_iff_ne.2 (h3 z' hz')⟩
  · rw [find_z, findZLoop_none_iff, hbound]
    constructor
    · intro hall z hz
      exact beq_eq_false_iff_ne.1 (hall z (Nat.zero_le z) (by omega))
    · intro hall z _ hz
      exact beq_eq_false_iff_ne.2 (hall z (by omega))

/-- Counterexample to C5 as originally stated: with the square test
`isSqCx` and a window whose eight y-coordinates all equal `1`, the source
search returns `z = 64000`, which lies outside the claimed candidate range
`[0, 1000 * h^2) = [0, 64000)`; no candidate inside the claimed range
qualifies, so under the claim the search would have reported no solution. -/
theorem find_z_bound_counterexample :
    find_z isSqCx (List.replicate 8 ((1 : ℕ) : Fp)) = some 64000
  ∧ ¬(64000 < 1000 * h ^ 2) := by
  constructor
  · apply ((find_z_first_hit isSqCx (List.replicate 8 ((1 : ℕ) : Fp))).1 64000).2
    refine ⟨by decide, by decide, ?_⟩
    intro z' hz' hsum
    rw [List.map_replicate, List.sum_replicate, smul_eq_mul] at hsum
    have hind : z_for_single_y isSqCx ((1 : ℕ) : Fp) z' = 1 := by
      have hle := z_for_single_y_le_one isSqCx ((1 : ℕ) : Fp) z'
      have hh : h = 8 := by decide
      omega
    have hcond := (z_for_single_y_eq_one_iff isSqCx ((1 : ℕ) : Fp) z').1 hind
    have hsq : (((1 : ℕ) : Fp) + ((z' : ℕ) : Fp)) = ((64001 : ℕ) : Fp) := by
      have := hcond.1
      rw [isSqCx] at this
      exact of_decide_eq_true this
    have h1 : ((1 + z' : ℕ) : Fp) = ((64001 : ℕ) : Fp) := by
      push_cast
      push_cast at hsq
      exact hsq
    have hlt : (64002 : ℕ) < pallasBaseModulus := by
      norm_num [pallasBaseModulus]
    have h2 : (1 + z') % pallasBaseModulus = 64001 % pallasBaseModulus := by
      have hv := congrArg ZMod.val h1
      rwa [ZMod.val_natCast, ZMod.val_natCast] at hv
    rw [Nat.mod_eq_of_lt (by omega), Nat.mod_eq_of_lt (by omega)] at h2
    omega
  · decide

/-! ### find_zs_go characterization -/

theorem find_zs_go_some_some {P : Type}
    (isSq : Fp → Bool) (toXY : P → Option (Fp × Fp)) :
    ∀ (L : List (List P)) (zs : List ℕ),
      find_zs_go isSq toXY L = some (some zs) →
        zs.length = L.length
        ∧ ∀ i < L.length,
            find_z_window isSq toXY (L.getD i []) = some (some (zs.getD i 0)) := by
  intro L
  induction L with
  | nil =>
    intro zs hzs
    simp only [find_zs_go, Option.some.injEq] at hzs
    subst hzs
    exact ⟨rfl, by intro i hi; simp at hi⟩
  | cons wp L ih =>
    intro zs hzs
    rw [find_zs_go] at hzs
    cases hfw : find_z_window isSq toXY wp with
    | none => rw [hfw] at hzs; simp at hzs
    | some r =>
      rw [hfw] at hzs
      cases r with
      | none => simp at hzs
      | some z =>
        cases hgo : find_zs_go isSq toXY L with
        | none => rw [hgo] at hzs; simp at hzs
        | some r' =>
          rw [hgo] at hzs
          cases r' with
          | none => simp at hzs
          | some zs' =>
            simp only [Option.map_some', Option.some.injEq] at hzs
            subst hzs
            obtain ⟨hlen, hidx⟩ := ih zs' hgo
            refine ⟨by simp [hlen], ?_⟩
            intro i hi
            cases i with
            | zero => simpa using hfw
            | succ i =>
              have := hidx i (by simpa using hi)
              simpa using this

theorem find_zs_go_some_none_iff {P : Type}
    (isSq : Fp → Bool) (toXY : P → Option (Fp × Fp)) :
    ∀ L : List (List P), (∀ wp ∈ L, find_z_window isSq toXY wp ≠ none) →
      (find_zs_go isSq toXY L = some none ↔
        ∃ i < L.length, find_z_window isSq toXY (L.getD i []) = some none) := by
  intro L
  induction L with
  | nil =>
    intro _
    simp [find_zs_go]
  | cons wp L ih =>
    intro hall
    rw [find_zs_go]
    cases hfw : find_z_window isSq toXY wp with
    | none => exact absurd hfw (hall wp (List.mem_cons_self wp L))
    | some r =>
      cases r with
      | none =>
        simp only [true_iff]
        exact ⟨0, by simp, by simpa using hfw⟩
      | some z =>
        have hiff := ih (fun wq hwq => hall wq (List.mem_cons_of_mem wp hwq))
        constructor
        · intro hmap
          cases hgo : find_zs_go isSq toXY L with
          | none => rw [hgo] at hmap; simp at hmap
          | some r' =>
            rw [hgo] at hmap
            cases r' with
            | none =>
              obtain ⟨i, hi, hieq⟩ := hiff.1 hgo
              exact ⟨i + 1, by simpa using Nat.succ_lt_succ hi, by simpa using hieq⟩
            | some zs' => simp at hmap
        · intro ⟨i, hi, hieq⟩
          cases i with
          | zero =>
            rw [List.getD_cons_zero, hfw] at hieq
            simp at hieq
          | succ i =>
            have hgo : find_zs_go isSq toXY L = some none :=
              hiff.2 ⟨i, by simpa using hi, by simpa using hieq⟩
            rw [hgo]
            simp

/-! ### Claim C6 -/

/-- Claim C6: for a full-order generator, `find_zs` returns the Rust `None`
(the inner `none`) exactly when some window's y-coordinates admit no `z`
within the search bound, and a returned `Some(zs)` holds exactly one integer
per window.  Absence is an explicit `Option` value, not a default. -/
theorem find_zs_none_iff_window_failure {P : Type}
    [AddCommGroup P] [Module Fq P]
    (isSq : Fp → Bool) (toXY : P → Option (Fp × Fp)) (g : P)
    (hord : ∀ a : Fq, a ≠ 0 → a • g ≠ 0)
    (htoXY : ∀ pt : P, toXY pt = none ↔ pt = 0) :
    (find_zs isSq toXY g = some none ↔
      ∃ w < NUM_WINDOWS, ∃ ys : List Fp,
        collectOption (fun pt => (toXY pt).map (fun xy => xy.2))
            ((compute_window_table g).getD w []) = some ys
        ∧ find_z isSq ys = none)
  ∧ (∀ zs : List ℕ, find_zs isSq toXY g = some (some zs) →
      zs.length = NUM_WINDOWS) := by
  have hwin : ∀ w < NUM_WINDOWS,
      (compute_window_table g).getD w [] ∈ compute_window_table g := by
    intro w hw
    have hwlen : w < (compute_window_table g).length := by
      rwa [wtable_length]
    rw [List.getD_eq_getElem _ _ hwlen]
    exact List.getElem_mem hwlen
  constructor
  · rw [find_zs, find_zs_go_some_none_iff isSq toXY _
      (fun wp hwp => by
        rw [find_z_window, if_pos (wtable_mem_length g wp hwp)]
        simp only [ne_eq, Option.map_eq_none']
        exact wtable_extraction_some (fun xy => xy.2) toXY g hord htoXY wp hwp)]
    rw [wtable_length]
    constructor
    · intro ⟨w, hw, hweq⟩
      refine ⟨w, hw, ?_⟩
      rw [find_z_window,
        if_pos (wtable_mem_length g _ (hwin w hw))] at hweq
      cases hco : collectOption (fun pt => (toXY pt).map (fun xy => xy.2))
          ((compute_window_table g).getD w []) with
      | none => rw [hco] at hweq; simp at hweq
      | some ys =>
        rw [hco] at hweq
        simp only [Option.map_some', Option.some.injEq] at hweq
        exact ⟨ys, rfl, hweq⟩
    · intro ⟨w, hw, ys, hco, hfz⟩
      refine ⟨w, hw, ?_⟩
      rw [find_z_window,
        if_pos (wtable_mem_length g _ (hwin w hw)), hco]
      simp [hfz]
  · intro zs hzs
    rw [find_zs] at hzs
    have := (find_zs_go_some_some isSq toXY _ zs hzs).1
    rwa [wtable_length] at this

/-- Witness for C6 at the generator `1 : Fq` with the everywhere-true square
test. -/
theorem find_zs_none_iff_window_failure_witness :
    (find_zs (fun _ => true) toXYW (1 : Fq) = some none ↔
      ∃ w < NUM_WINDOWS, ∃ ys : List Fp,
        collectOption (fun pt => (toXYW pt).map (fun xy => xy.2))
            ((compute_window_table (1 : Fq)).getD w []) = some ys
        ∧ find_z (fun _ => true) ys = none)
  ∧ (∀ zs : List ℕ, find_zs (fun _ => true) toXYW (1 : Fq) = some (some zs) →
      zs.length = NUM_WINDOWS) :=
  find_zs_none_iff_window_failure (fun _ => true) toXYW (1 : Fq) hordW toXYW_spec

/-! ### Claim C4 -/

theorem sum_le_length : ∀ l : List ℕ, (∀ x ∈ l, x ≤ 1) → l.sum ≤ l.length
  | [], _ => by simp
  | a :: l, hall => by
    have ha := hall a (List.mem_cons_self a l)
    have hl := sum_le_length l (fun x hx => hall x (List.mem_cons_of_mem a hx))
    simp only [List.sum_cons, List.length_cons]
    omega

theorem eq_one_of_sum_eq_length :
    ∀ l : List ℕ, (∀ x ∈ l, x ≤ 1) → l.sum = l.length → ∀ x ∈ l, x = 1
  | [], _, _ => by simp
  | a :: l, hall, hsum => by
    have ha := hall a (List.mem_cons_self a l)
    have hl := sum_le_length l (fun x hx => hall x (List.mem_cons_of_mem a hx))
    simp only [List.sum_cons, List.length_cons] at hsum
    have ha1 : a = 1 := by omega
    have hsl : l.sum = l.length := by omega
    intro x hx
    rcases List.mem_cons.1 hx with hxa | hxl
    · rw [hxa, ha1]
    · exact eq_one_of_sum_eq_length l
        (fun x hx => hall x (List.mem_cons_of_mem a hx)) hsl x hxl

theorem getD_map {α β : Type} (f : α → β) {l : List α} {k : ℕ}
    (hk : k < l.length) (d : α) (dβ : β) :
    (l.map f).getD k dβ = f (l.getD k d) := by
  rw [List.getD_eq_getElem _ _ (by simpa using hk),
    List.getD_eq_getElem _ _ hk]
  simp

/-- Claim C4 (z validity): whenever `find_zs` returns a vector `zs`, then
for every window `w` and every point `(x, y)` of that window, `y + zs[w]`
passes the square test and `zs[w] - y` fails it. -/
theorem find_zs_z_validity {P : Type} [AddCommGroup P] [Module Fq P]
    (isSq : Fp → Bool) (toXY : P → Option (Fp × Fp)) (g : P) (zs : List ℕ)
    (hzs : find_zs isSq toXY g = some (some zs))
    (w k : ℕ) (hw : w < NUM_WINDOWS) (hk : k < h) (x y : Fp)
    (hxy : toXY (((compute_window_table g).getD w []).getD k 0) = some (x, y)) :
    isSq (y + ((zs.getD w 0 : ℕ) : Fp)) = true
  ∧ isSq (((zs.getD w 0 : ℕ) : Fp) - y) = false := by
  rw [find_zs] at hzs
  obtain ⟨hlen, hidx⟩ := find_zs_go_some_some isSq toXY _ zs hzs
  have hwlen : w < (compute_window_table g).length := by rwa [wtable_length]
  have hfw := hidx w hwlen
  rw [find_z_window] at hfw
  by_cases hwp : ((compute_window_table g).getD w []).length = h
  · rw [if_pos hwp] at hfw
    cases hco : collectOption (fun pt => (toXY pt).map (fun xy => xy.2))
        ((compute_window_table g).getD w []) with
    | none => rw [hco] at hfw; simp at hfw
    | some ys =>
      rw [hco] at hfw
      simp only [Option.map_some', Option.some.injEq] at hfw
      have haccept := (((find_z_first_hit isSq ys).1 (zs.getD w 0)).1 hfw).2.1
      have hyslen : ys.length = h := by
        rw [collectOption_some_length _ hco, hwp]
      have hyk : ys.getD k 0 = y := by
        have hpt := collectOption_some_getD _ (0 : P) (0 : Fp) hco k
          (by rwa [hwp])
        rw [hxy] at hpt
        simp only [Option.map_some', Option.some.injEq] at hpt
        exact hpt.symm
      have hall : ∀ v ∈ ys.map (fun y0 => z_for_single_y isSq y0 (zs.getD w 0)),
          v = 1 := by
        apply eq_one_of_sum_eq_length
        · intro v hv
          rcases List.mem_map.1 hv with ⟨y0, _, rfl⟩
          exact z_for_single_y_le_one isSq y0 (zs.getD w 0)
        · rw [haccept]
          simp [hyslen]
      have hmem : z_for_single_y isSq (ys.getD k 0) (zs.getD w 0)
          ∈ ys.map (fun y0 => z_for_single_y isSq y0 (zs.getD w 0)) := by
        have hklen : k < ys.length := by rwa [hyslen]
        rw [← getD_map (fun y0 => z_for_single_y isSq y0 (zs.getD w 0)) hklen 0 0]
        have : k < (ys.map (fun y0 => z_for_single_y isSq y0 (zs.getD w 0))).length := by
          simpa using hklen
        rw [List.getD_eq_getElem _ _ this]
        exact List.getElem_mem this
      have hone := hall _ hmem
      rw [hyk] at hone
      obtain ⟨h1, h2⟩ := (z_for_single_y_eq_one_iff isSq y (zs.getD w 0)).1 hone
      refine ⟨h1, ?_⟩
      rwa [sub_eq_neg_add]
  · rw [if_neg hwp] at hfw
    exact absurd hfw (by simp)

/-- Witness for C4: a constant coordinate map sending every point to
`(5, 5)` and the square test accepting exactly `5`; every window then
accepts `z = 0` and `find_zs` returns 85 zeros, evaluated by `decide`. -/
theorem find_zs_z_validity_witness :
    (find_zs (fun v => decide (v = ((5 : ℕ) : Fp)))
        (fun _ : Fq => some (((5 : ℕ) : Fp), ((5 : ℕ) : Fp))) (1 : Fq)
      = some (some (List.replicate 85 0)))
  ∧ (0 < NUM_WINDOWS ∧ 0 < h)
  ∧ ((fun v => decide (v = ((5 : ℕ) : Fp)))
        (((5 : ℕ) : Fp) + (((List.replicate 85 0).getD 0 0 : ℕ) : Fp)) = true
  ∧ (fun v => decide (v = ((5 : ℕ) : Fp)))
        ((((List.replicate 85 0).getD 0 0 : ℕ) : Fp) - ((5 : ℕ) : Fp)) = false) :=
  ⟨by decide, ⟨by decide, by decide⟩,
    find_zs_z_validity (fun v => decide (v = ((5 : ℕ) : Fp)))
      (fun _ : Fq => some (((5 : ℕ) : Fp), ((5 : ℕ) : Fp))) (1 : Fq)
      (List.replicate 85 0) (by decide) 0 0 (by decide) (by decide)
      ((5 : ℕ) : Fp) ((5 : ℕ) : Fp) rfl⟩

/-! ### Bridge from coefficient lists to Mathlib polynomials -/

/-- Interpretation of a coefficient list as a polynomial (proof apparatus
only; the executable code works on the lists). -/
noncomputable def toPoly (l : List Fp) : Polynomial Fp :=
  l.foldr (fun c p => Polynomial.C c + Polynomial.X * p) 0

theorem toPoly_nil : toPoly ([] : List Fp) = 0 := rfl

theorem toPoly_cons (c : Fp) (l : List Fp) :
    toPoly (c :: l) = Polynomial.C c + Polynomial.X * toPoly l := rfl

theorem toPoly_eval (x : Fp) :
    ∀ l : List Fp, (toPoly l).eval x = evaluate l x
  | [] => by simp [toPoly_nil, evaluate]
  | c :: l => by
    rw [toPoly_cons, evaluate, List.foldr_cons, Polynomial.eval_add,
      Polynomial.eval_C, Polynomial.eval_mul, Polynomial.eval_X]
    rw [show l.foldr (fun c acc => c + x * acc) 0 = evaluate l x from rfl,
      ← toPoly_eval x l]

theorem polyAdd_nil_left (l₂ : List Fp) : polyAdd [] l₂ = l₂ := by
  cases l₂ <;> rfl

theorem polyAdd_nil_right (l₁ : List Fp) : polyAdd l₁ [] = l₁ := by
  cases l₁ <;> rfl

theorem polyAdd_cons_cons (a b : Fp) (l₁ l₂ : List Fp) :
    polyAdd (a :: l₁) (b :: l₂) = (a + b) :: polyAdd l₁ l₂ := rfl

theorem toPoly_polyAdd : ∀ l₁ l₂ : List Fp,
    toPoly (polyAdd l₁ l₂) = toPoly l₁ + toPoly l₂
  | [], l₂ => by
    rw [polyAdd_nil_left, toPoly_nil, zero_add]
  | a :: l₁, [] => by
    rw [polyAdd_nil_right, toPoly_nil, add_zero]
  | a :: l₁, b :: l₂ => by
    rw [polyAdd_cons_cons, toPoly_cons, toPoly_cons, toPoly_cons,
      toPoly_polyAdd l₁ l₂, Polynomial.C_add]
    ring

theorem toPoly_polyScale (c : Fp) :
    ∀ l : List Fp, toPoly (polyScale c l) = Polynomial.C c * toPoly l
  | [] => by rw [polyScale, List.map_nil, toPoly_nil, mul_zero]
  | a :: l => by
    rw [polyScale, List.map_cons,
      show (List.map (fun a => c * a) l) = polyScale c l from rfl,
      toPoly_cons, toPoly_cons, toPoly_polyScale c l, Polynomial.C_mul]
    ring

theorem toPoly_polyMulXsub (a : Fp) (l : List Fp) :
    toPoly (polyMulXsub a l) = (Polynomial.X - Polynomial.C a) * toPoly l := by
  rw [polyMulXsub, toPoly_polyAdd, toPoly_cons, toPoly_polyScale,
    Polynomial.C_0, Polynomial.C_neg]
  ring

theorem toPoly_foldr_mulXsub (xs : ℕ → Fp) :
    ∀ L : List ℕ,
      toPoly (L.foldr (fun j acc => polyMulXsub (xs j) acc) [1])
        = (L.map (fun j => Polynomial.X - Polynomial.C (xs j))).prod
  | [] => by
    rw [List.foldr_nil, List.map_nil, List.prod_nil, toPoly_cons, toPoly_nil]
    simp
  | j :: L => by
    rw [List.foldr_cons, List.map_cons, List.prod_cons,
      toPoly_polyMulXsub, toPoly_foldr_mulXsub xs L]

theorem toPoly_interpNumer (points : List Fp) (i : ℕ) :
    toPoly (interpNumer points i)
      = (((List.range points.length).filter (fun j => j ≠ i)).map
          (fun j => Polynomial.X - Polynomial.C (points.getD j 0))).prod := by
  rw [interpNumer, toPoly_foldr_mulXsub]

theorem toPoly_foldl_polyAdd (f : ℕ → List Fp) :
    ∀ (L : List ℕ) (acc : List Fp),
      toPoly (L.foldl (fun a i => polyAdd a (f i)) acc)
        = toPoly acc + (L.map (fun i => toPoly (f i))).sum
  | [], acc => by simp
  | i :: L, acc => by
    rw [List.foldl_cons, toPoly_foldl_polyAdd f L (polyAdd acc (f i)),
      toPoly_polyAdd, List.map_cons, List.sum_cons]
    ring

theorem sum_map_range_eq_single (f : ℕ → Fp) :
    ∀ n k : ℕ, k < n → (∀ i < n, i ≠ k → f i = 0) →
      ((List.range n).map f).sum = f k := by
  intro n
  induction n with
  | zero => intro k hk _; omega
  | succ n ih =>
    intro k hk hzero
    rw [List.range_succ, List.map_append, List.sum_append]
    simp only [List.map_cons, List.map_nil, List.sum_cons, List.sum_nil, add_zero]
    rcases Nat.lt_or_ge k n with hlt | hge
    · rw [ih k hlt (fun i hi hne => hzero i (by omega) hne),
        hzero n (by omega) (by omega), add_zero]
    · have hkeq : k = n := by omega
      subst hkeq
      have hz : ((List.range k).map f).sum = 0 := by
        apply List.sum_eq_zero
        intro v hv
        rcases List.mem_map.1 hv with ⟨i, hi, rfl⟩
        have hik : i < k := List.mem_range.1 hi
        exact hzero i (by omega) (by omega)
      rw [hz, zero_add]

/-- Round-trip of the modelled Lagrange interpolation: evaluating the
interpolant at the `k`-th node returns the `k`-th value, provided every
node's denominator is a unit (which distinct nodes guarantee in a field). -/
theorem lagrange_interpolate_eval (points evals : List Fp)
    (hunit : ∀ i < points.length, IsUnit (interpDenom points i))
    (k : ℕ) (hk : k < points.length) :
    evaluate (lagrange_interpolate points evals) (points.getD k 0)
      = evals.getD k 0 := by
  rw [← toPoly_eval, lagrange_interpolate]
  have heval : ∀ i : ℕ,
      Polynomial.eval (points.getD k 0)
          (toPoly (polyScale (evals.getD i 0 * (interpDenom points i)⁻¹)
            (interpNumer points i)))
        = (evals.getD i 0 * (interpDenom points i)⁻¹)
            * (((List.range points.length).filter (fun j => j ≠ i)).map
                (fun j => points.getD k 0 - points.getD j 0)).prod := by
    intro i
    rw [toPoly_polyScale, toPoly_interpNumer, Polynomial.eval_mul,
      Polynomial.eval_C, Polynomial.eval_list_prod, List.map_map]
    have hfun : (Polynomial.eval (points.getD k 0)
          ∘ fun j => Polynomial.X - Polynomial.C (points.getD j 0))
        = fun j => points.getD k 0 - points.getD j 0 := by
      funext j
      simp
    rw [hfun]
  have hsum : Polynomial.eval (points.getD k 0)
      (toPoly ((List.range points.length).foldl
        (fun a i =>
          polyAdd a
            (polyScale (evals.getD i 0 * (interpDenom points i)⁻¹)
              (interpNumer points i))) []))
      = (((List.range points.length)).map
          (fun i =>
            (evals.getD i 0 * (interpDenom points i)⁻¹)
              * (((List.range points.length).filter (fun j => j ≠ i)).map
                  (fun j => points.getD k 0 - points.getD j 0)).prod)).sum := by
    rw [toPoly_foldl_polyAdd, toPoly_nil, zero_add, ← Polynomial.coe_evalRingHom,
      map_list_sum (Polynomial.evalRingHom (points.getD k 0)), List.map_map]
    congr 1
    apply List.map_congr_left
    intro i _
    rw [Function.comp_apply, Polynomial.coe_evalRingHom, heval i]
  rw [hsum, sum_map_range_eq_single _ points.length k hk]
  · rw [show (((List.range points.length).filter (fun j => j ≠ k)).map
          (fun j => points.getD k 0 - points.getD j 0)).prod
        = interpDenom points k from rfl,
      mul_assoc, ZMod.inv_mul_of_unit _ (hunit k hk), mul_one]
  · intro i hi hne
    have hzero : (0 : Fp) ∈ ((List.range points.length).filter (fun j => j ≠ i)).map
        (fun j => points.getD k 0 - points.getD j 0) := by
      apply List.mem_map.2
      refine ⟨k, ?_, sub_self _⟩
      apply List.mem_filter.2
      refine ⟨List.mem_range.2 hk, ?_⟩
      simpa using fun hcontra => hne (by omega)
    rw [List.prod_eq_zero hzero, mul_zero]

/-! ### Claim C3 -/

/-- The interpolation nodes `0, 1, ..., h-1` are pairwise distinct small
integers in the base field, so every Lagrange denominator is a unit. -/
theorem nodes_interpDenom_isUnit :
    ∀ i < ((List.range h).map (fun i0 => ((i0 : ℕ) : Fp))).length,
      IsUnit (interpDenom ((List.range h).map (fun i0 => ((i0 : ℕ) : Fp))) i) := by
  have hlen : ((List.range h).map (fun i0 => ((i0 : ℕ) : Fp))).length = h := by
    simp
  intro i hi
  rw [hlen] at hi
  rw [interpDenom, hlen]
  apply List.prod_isUnit
  intro a ha
  rcases List.mem_map.1 ha with ⟨j, hj, rfl⟩
  have hjr := List.mem_filter.1 hj
  have hjlt : j < h := List.mem_range.1 hjr.1
  have hjne : j ≠ i := by simpa using hjr.2
  rw [getD_map_range _ hi, getD_map_range _ hjlt]
  have hcop : ∀ d < h, 0 < d → Nat.Coprime d pallasBaseModulus := by decide
  rcases Nat.lt_or_ge j i with hji | hij
  · rw [show ((i : ℕ) : Fp) - ((j : ℕ) : Fp) = (((i - j : ℕ)) : Fp) from
      (Nat.cast_sub (Nat.le_of_lt hji)).symm]
    exact (ZMod.isUnit_iff_coprime _ _).2 (hcop (i - j) (by omega) (by omega))
  · have hij' : i < j := by omega
    rw [show ((i : ℕ) : Fp) - ((j : ℕ) : Fp) = -(((j - i : ℕ)) : Fp) by
      rw [Nat.cast_sub (Nat.le_of_lt hij')]; ring]
    exact ((ZMod.isUnit_iff_coprime _ _).2 (hcop (j - i) (by omega) (by omega))).neg

theorem compute_lagrange_coeffs_eq {P : Type} [AddCommGroup P] [Module Fq P]
    (toXY : P → Option (Fp × Fp)) (g : P)
    (hord : ∀ a : Fq, a ≠ 0 → a • g ≠ 0)
    (htoXY : ∀ pt : P, toXY pt = none ↔ pt = 0) :
    compute_lagrange_coeffs toXY g
      = some ((compute_window_table g).map (fun wp =>
          lagrange_interpolate ((List.range h).map (fun i => ((i : ℕ) : Fp)))
            (wp.map (fun pt => ((toXY pt).getD (0, 0)).1)))) := by
  unfold compute_lagrange_coeffs
  apply collectOption_eq_some_map
  intro wp hwp
  have hinner : collectOption (fun pt => (toXY pt).map (fun xy => xy.1)) wp
      = some (wp.map (fun pt => ((toXY pt).getD (0, 0)).1)) := by
    apply collectOption_eq_some_map
    intro pt hpt
    have hne : pt ≠ 0 := wtable_mem_ne_zero g hord wp hwp pt hpt
    have hnn : toXY pt ≠ none := fun hc => hne ((htoXY pt).1 hc)
    cases hxy : toXY pt with
    | none => exact absurd hxy hnn
    | some xy => simp
  rw [hinner]
  simp

/-- Claim C3 (Lagrange round-trip): for a full-order generator, the derived
coefficients exist and, for every window `w` and digit `k < h`, evaluating
window `w`'s polynomial at the base-field element `k` gives exactly the
affine x-coordinate of `table[w][k]`. -/
theorem lagrange_coeffs_roundtrip {P : Type} [AddCommGroup P] [Module Fq P]
    (toXY : P → Option (Fp × Fp)) (g : P)
    (hord : ∀ a : Fq, a ≠ 0 → a • g ≠ 0)
    (htoXY : ∀ pt : P, toXY pt = none ↔ pt = 0)
    (w k : ℕ) (hw : w < NUM_WINDOWS) (hk : k < h) :
    ∃ cs : List (List Fp),
      compute_lagrange_coeffs toXY g = some cs
      ∧ ∀ x y : Fp,
          toXY (((compute_window_table g).getD w []).getD k 0) = some (x, y) →
          evaluate (cs.getD w []) ((k : ℕ) : Fp) = x := by
  refine ⟨_, compute_lagrange_coeffs_eq toXY g hord htoXY, ?_⟩
  intro x y hxy
  have hwlen : w < (compute_window_table g).length := by rwa [wtable_length]
  rw [getD_map (fun wp =>
      lagrange_interpolate ((List.range h).map (fun i => ((i : ℕ) : Fp)))
        (wp.map (fun pt => ((toXY pt).getD (0, 0)).1))) hwlen [] []]
  have hmem : (compute_window_table g).getD w [] ∈ compute_window_table g := by
    rw [List.getD_eq_getElem _ _ hwlen]
    exact List.getElem_mem hwlen
  have hwplen : ((compute_window_table g).getD w []).length = h :=
    wtable_mem_length g _ hmem
  have hnode : ((List.range h).map (fun i => ((i : ℕ) : Fp))).getD k 0
      = ((k : ℕ) : Fp) := getD_map_range _ hk _
  rw [← hnode,
    lagrange_interpolate_eval _ _ nodes_interpDenom_isUnit k (by simpa using hk)]
  have hkwp : k < ((compute_window_table g).getD w []).length := by
    rw [hwplen]; exact hk
  rw [getD_map (fun pt => ((toXY pt).getD (0, 0)).1) hkwp (0 : P) (0 : Fp), hxy]
  rfl

/-- Witness for C3 at the generator `1 : Fq`, window `0`, digit `0`. -/
theorem lagrange_coeffs_roundtrip_witness :
    (0 < NUM_WINDOWS ∧ 0 < h)
  ∧ ∃ cs : List (List Fp),
      compute_lagrange_coeffs toXYW (1 : Fq) = some cs
      ∧ ∀ x y : Fp,
          toXYW (((compute_window_table (1 : Fq)).getD 0 []).getD 0 0) = some (x, y) →
          evaluate (cs.getD 0 []) ((0 : ℕ) : Fp) = x :=
  ⟨⟨by decide, by decide⟩,
    lagrange_coeffs_roundtrip toXYW (1 : Fq) hordW toXYW_spec 0 0
      (by decide) (by decide)⟩

/-! ### Claim C7 -/

/-- Claim C7 evaluated on concrete inputs (with the wrapped container
instantiated by scalar-field elements): the source's `PartialEq` compares
the wrapped points via `inner()` and ignores the role tags, so two values
with different roles wrapping equal points compare equal, and two values
with the same role wrapping different points compare unequal — while the
source's `Hash` writes only the role name.  This contradicts the claim that
equality is determined solely by the role tag, and exhibits a pair that is
equal under `PartialEq` yet hashes differently, violating the documented
Rust `Eq`/`Hash` consistency contract the role-based design intends. -/
theorem orchardFixedBases_eq_ignores_role :
    OrchardFixedBases.eq
        (OrchardFixedBases.CommitIvkR (OrchardFixedBase.new (1 : Fq)))
        (OrchardFixedBases.NoteCommitR (OrchardFixedBase.new (1 : Fq))) = true
  ∧ OrchardFixedBases.eq
        (OrchardFixedBases.CommitIvkR (OrchardFixedBase.new (1 : Fq)))
        (OrchardFixedBases.CommitIvkR (OrchardFixedBase.new (2 : Fq))) = false
  ∧ OrchardFixedBases.hashWrite
        (OrchardFixedBases.CommitIvkR (OrchardFixedBase.new (1 : Fq)))
      ≠ OrchardFixedBases.hashWrite
        (OrchardFixedBases.NoteCommitR (OrchardFixedBase.new (1 : Fq)))
  ∧ OrchardFixedBases.hashWrite
        (OrchardFixedBases.CommitIvkR (OrchardFixedBase.new (1 : Fq)))
      = OrchardFixedBases.hashWrite
        (OrchardFixedBases.CommitIvkR (OrchardFixedBase.new (2 : Fq))) := by
  refine ⟨?_, ?_, ?_, rfl⟩
  · decide
  · decide
  · decide

end Orchard
